import Mathlib

/-!
Verification of the valuation and time-series engine of the
simple-investor-portfolio application (src/index.js).

Timestamps are epoch milliseconds, embedded as `Int`; prices and
quantities are embedded as `ℚ`.  JavaScript's stable comparison sort
(`Array.prototype.sort` with comparator `(a, b) => a.ts - b.ts`) is
embedded as `List.insertionSort`, which is likewise a stable sort and
produces the same list for the same total preorder on keys.
-/

namespace SIP

/-- Embeds the price observation records `{ts, price}` stored in each
ETF's `prices` array. -/
structure PriceObs where
  ts : Int
  price : ℚ
deriving DecidableEq

/-- Embeds the instrument records `{symbol, name, prices}` of the `etfs`
collection. -/
structure Etf where
  symbol : String
  name : String
  prices : List PriceObs
deriving DecidableEq

/-- Embeds the purchase records `{ts, symbol, qty}` of the `purchases`
collection. -/
structure Purchase where
  ts : Int
  symbol : String
  qty : ℚ
deriving DecidableEq

/-- Timestamp comparison used by the comparator `(a, b) => a.ts - b.ts`
passed to the sort in `priceAt`. -/
def tsLE (a b : PriceObs) : Prop := a.ts ≤ b.ts

instance : DecidableRel tsLE := fun a b => inferInstanceAs (Decidable (a.ts ≤ b.ts))

instance : IsTotal PriceObs tsLE := ⟨fun a b => Int.le_total a.ts b.ts⟩

instance : IsTrans PriceObs tsLE := ⟨fun _ _ _ h1 h2 => le_trans h1 h2⟩

/-- Embeds `[...e.prices].sort((a, b) => a.ts - b.ts)` from `priceAt`
(src/index.js line 134): a stable sort of a copy by ascending timestamp. -/
def sortPrices (l : List PriceObs) : List PriceObs := l.insertionSort tsLE

/-- Embeds `etfs.find((x) => x.symbol === symbol)` (src/index.js
lines 125 and 131). -/
def findEtf (etfs : List Etf) (symbol : String) : Option Etf :=
  etfs.find? (fun x => x.symbol == symbol)

/-- Embeds `latestPrice` (src/index.js lines 124-128):
`e.prices.reduce((a, b) => (a.ts > b.ts ? a : b)).price`, returning
null (`none`) when the symbol is absent or has no observations. -/
def latestPrice (etfs : List Etf) (symbol : String) : Option ℚ :=
  match findEtf etfs symbol with
  | none => none
  | some e =>
    match e.prices with
    | [] => none
    | p :: rest =>
      some ((rest.foldl (fun a b => if a.ts > b.ts then a else b) p).price)

/-- Embeds the candidate scan of `priceAt` (src/index.js lines 135-138):
`for (const p of sorted) { if (p.ts <= ts) candidate = p; else break; }`.
The accumulator is the current value of `candidate`; the `else` branch is
the loop break. -/
def scanCandidate : List PriceObs → Int → Option PriceObs → Option PriceObs
  | [], _, cand => cand
  | p :: rest, ts, cand =>
    if p.ts ≤ ts then scanCandidate rest ts (some p) else cand

/-- Embeds the fallback scan of `priceAt` (src/index.js lines 141-146):
running `closest`/`minDiff` state, updated when a strictly smaller
absolute timestamp distance is found. -/
def closestScan : List PriceObs → Int → PriceObs → Int → PriceObs
  | [], _, closest, _ => closest
  | p :: rest, ts, closest, minDiff =>
    if |p.ts - ts| < minDiff then closestScan rest ts p |p.ts - ts|
    else closestScan rest ts closest minDiff

/-- Embeds `priceAt` (src/index.js lines 130-148).  The unreachable
inner `[]` case mirrors the source's `closest?.price ?? null` guard. -/
def priceAt (etfs : List Etf) (symbol : String) (ts : Int) : Option ℚ :=
  match findEtf etfs symbol with
  | none => none
  | some e =>
    if e.prices.isEmpty then none
    else
      let sorted := sortPrices e.prices
      match scanCandidate sorted ts none with
      | some c => some c.price
      | none =>
        match sorted with
        | [] => none
        | p0 :: _ => some ((closestScan sorted ts p0 |p0.ts - ts|).price)

/-- Result record of `computeTotals` (src/index.js line 162):
`{ invested, current, pl, plPct }`. -/
structure Totals where
  invested : ℚ
  current : ℚ
  pl : ℚ
  plPct : ℚ
deriving DecidableEq

/-- Loop body of `computeTotals` (src/index.js lines 154-159): the pair
accumulator carries `(invested, current)`. -/
def totalsStep (etfs : List Etf) (acc : ℚ × ℚ) (p : Purchase) : ℚ × ℚ :=
  let inv :=
    match priceAt etfs p.symbol p.ts with
    | some u => acc.1 + p.qty * u
    | none => acc.1
  let cur :=
    match latestPrice etfs p.symbol with
    | some u => acc.2 + p.qty * u
    | none => acc.2
  (inv, cur)

/-- Embeds `computeTotals` (src/index.js lines 151-163). -/
def computeTotals (etfs : List Etf) (purchases : List Purchase) : Totals :=
  let ic := purchases.foldl (totalsStep etfs) (0, 0)
  let pl := ic.2 - ic.1
  let plPct := if ic.1 > 0 then pl / ic.1 * 100 else 0
  ⟨ic.1, ic.2, pl, plPct⟩

/-- Embeds `monthsToReach` (src/index.js lines 165-171); the JavaScript
`Infinity` sentinel is embedded as `none`.  The `+target || 0` coercions
are identity on the already-numeric inputs of this typed model. -/
def monthsToReach (target monthly : ℚ) : Option Int :=
  if monthly ≤ 0 then none
  else some ⌈max 0 target / monthly⌉

/-- Embeds one `times.add(ts)` step of the timeline `Set` in
`renderPortfolioChart` (src/index.js lines 588-590): insertion order with
first occurrence kept. -/
def addTime (acc : List Int) (t : Int) : List Int :=
  if t ∈ acc then acc else acc ++ [t]

/-- Embeds the timeline construction of `renderPortfolioChart`
(src/index.js lines 588-591): all price-observation timestamps of all
ETFs, then all purchase timestamps, deduplicated by the `Set` and sorted
ascending. -/
def sampleTimestamps (etfs : List Etf) (purchases : List Purchase) : List Int :=
  let withPrices :=
    etfs.foldl (fun acc e => e.prices.foldl (fun a p => addTime a p.ts) acc) []
  let times := purchases.foldl (fun acc p => addTime acc p.ts) withPrices
  times.insertionSort (· ≤ ·)

/-- Modelled from the spec: `investedAt(purchases, t)` — the independent
recomputation of the cumulative cost basis, summing
`quantity * priceAt(symbol, purchase.timestamp)` over purchases with
`timestamp <= t`, skipping null prices.  This function is not a separate
function in src/index.js (the chart code only has the incremental
accumulation of lines 606-613); it serves as the comparison point for
the refinement claim about that accumulation. -/
def investedAt (etfs : List Etf) (purchases : List Purchase) (t : Int) : ℚ :=
  (purchases.filter (fun p => p.ts ≤ t)).foldl
    (fun acc p =>
      match priceAt etfs p.symbol p.ts with
      | some u => acc + p.qty * u
      | none => acc) 0

/-- Embeds the invested-series construction of `renderPortfolioChart`
(src/index.js lines 606-613): a single running `investedTotal`, shared
across all sample points, to which every purchase with `p.ts <= t` is
re-added at every point `t`. -/
def seriesInvested (etfs : List Etf) (purchases : List Purchase)
    (points : List Int) : List (Int × ℚ) :=
  (points.foldl
    (fun (st : ℚ × List (Int × ℚ)) t =>
      let total :=
        (purchases.filter (fun p => p.ts ≤ t)).foldl
          (fun acc p =>
            match priceAt etfs p.symbol p.ts with
            | some u => acc + p.qty * u
            | none => acc) st.1
      (total, st.2 ++ [(t, total)]))
    (0, [])).2

/-- Contribution of one purchase to the `invested` accumulator of
`computeTotals` (src/index.js line 157), with a null price contributing
zero. -/
def investedContrib (etfs : List Etf) (p : Purchase) : ℚ :=
  match priceAt etfs p.symbol p.ts with
  | some u => p.qty * u
  | none => 0

/-- Contribution of one purchase to the `current` accumulator of
`computeTotals` (src/index.js line 158), with a null price contributing
zero. -/
def currentContrib (etfs : List Etf) (p : Purchase) : ℚ :=
  match latestPrice etfs p.symbol with
  | some u => p.qty * u
  | none => 0

/-- Shared concrete fixture: instrument `AAA` with observations
`(t=100, price 10)` and `(t=200, price 20)`. -/
def aaaEtf : Etf := ⟨"AAA", "AAA fund", [⟨100, 10⟩, ⟨200, 20⟩]⟩

/-- Shared concrete fixture: a purchase of 5 units of `AAA` at `t=150`. -/
def buyAAA : Purchase := ⟨150, "AAA", 5⟩

/-- Shared concrete fixture: a purchase referencing a symbol `CCC` that
is absent from the instrument collection. -/
def buyCCC : Purchase := ⟨150, "CCC", 5⟩

/-- Shared concrete fixture: a purchase of 1 unit of `AAA` at `t=100`. -/
def buyOne : Purchase := ⟨100, "AAA", 1⟩

/-- Embeds the goal records `{id, name, target, monthly}`. -/
structure Goal where
  id : String
  name : String
  target : ℚ
  monthly : ℚ
deriving DecidableEq

/-- Embeds the ui state record `{active, expandedEtfs}`. -/
structure UiState where
  active : String
  expandedEtfs : List String
deriving DecidableEq

/-- Embeds the four persisted collections (`etfs`, `purchases`, `goals`,
`ui`). -/
structure AppState where
  etfs : List Etf
  purchases : List Purchase
  goals : List Goal
  ui : UiState
deriving DecidableEq

/-- Embeds a parsed import document for `importAll` (src/index.js
lines 87-110).  A field is `some` exactly when it is present as an array
(respectively, for `ui`, as an object) in the parsed JSON, matching the
`Array.isArray` checks of the source. -/
structure ImportDoc where
  etfs : Option (List Etf)
  purchases : Option (List Purchase)
  goals : Option (List Goal)
  ui : Option UiState
deriving DecidableEq

/-- Embeds `importAll` (src/index.js lines 87-110).  The `Option` input
is `none` when `JSON.parse` throws or the result is not an object; the
returned flag is `true` on the success path (success alert) and `false`
on the catch path (error alert).  On the catch path no assignment to the
state has happened, so the stored state is returned unchanged; on
success `goals` defaults to `[]` and `ui` keeps its old value when
absent, as in lines 96-97. -/
def importAll (doc : Option ImportDoc) (st : AppState) : AppState × Bool :=
  match doc with
  | none => (st, false)
  | some d =>
    match d.etfs, d.purchases with
    | some es, some ps =>
      ({ etfs := es, purchases := ps, goals := d.goals.getD [],
         ui := d.ui.getD st.ui }, true)
    | _, _ => (st, false)

/-! ## Helper lemmas about sorting and the scans of `priceAt` -/

theorem sortPrices_perm (l : List PriceObs) : (sortPrices l).Perm l :=
  List.perm_insertionSort tsLE l

theorem mem_sortPrices {p : PriceObs} {l : List PriceObs} :
    p ∈ sortPrices l ↔ p ∈ l :=
  (sortPrices_perm l).mem_iff

theorem nodup_ts_sortPrices {l : List PriceObs}
    (h : (l.map PriceObs.ts).Nodup) : ((sortPrices l).map PriceObs.ts).Nodup :=
  (((sortPrices_perm l).map PriceObs.ts).symm).nodup h

theorem sortPrices_sorted_lt {l : List PriceObs}
    (h : (l.map PriceObs.ts).Nodup) :
    List.Sorted (fun a b : PriceObs => a.ts < b.ts) (sortPrices l) := by
  have hle : List.Sorted tsLE (sortPrices l) := List.sorted_insertionSort tsLE l
  have hne : List.Pairwise (fun a b : PriceObs => a.ts ≠ b.ts) (sortPrices l) :=
    List.pairwise_map.mp (nodup_ts_sortPrices h)
  exact (List.Pairwise.and hle hne).imp (fun hab => lt_of_le_of_ne hab.1 hab.2)

theorem ts_inj {l : List PriceObs} (h : (l.map PriceObs.ts).Nodup)
    {a b : PriceObs} (ha : a ∈ l) (hb : b ∈ l) (hts : a.ts = b.ts) : a = b :=
  List.inj_on_of_nodup_map h ha hb hts

theorem scanCandidate_all_gt :
    ∀ {l : List PriceObs} {t : Int} {cand : Option PriceObs},
      (∀ q ∈ l, t < q.ts) → scanCandidate l t cand = cand
  | [], _, _, _ => rfl
  | a :: rest, t, cand, h => by
    rw [scanCandidate, if_neg (not_le.mpr (h a (List.mem_cons_self a rest)))]

theorem scanCandidate_max :
    ∀ (l : List PriceObs), List.Sorted (fun a b : PriceObs => a.ts < b.ts) l →
      ∀ (t : Int) (p : PriceObs), p ∈ l → p.ts ≤ t →
        (∀ q ∈ l, q.ts ≤ t → q.ts ≤ p.ts) →
        ∀ cand, scanCandidate l t cand = some p
  | [], _, _, p, hp, _, _, _ => absurd hp (List.not_mem_nil p)
  | a :: rest, hs, t, p, hp, hpt, hmax, cand => by
    have hrest := List.sorted_cons.mp hs
    rcases List.mem_cons.mp hp with heq | hmem
    · subst heq
      rw [scanCandidate, if_pos hpt]
      apply scanCandidate_all_gt
      intro q hq
      by_contra hle
      push_neg at hle
      exact absurd (hmax q (List.mem_cons_of_mem _ hq) hle)
        (not_le.mpr (hrest.1 q hq))
    · have hat : a.ts ≤ t := le_of_lt (lt_of_lt_of_le (hrest.1 p hmem) hpt)
      rw [scanCandidate, if_pos hat]
      exact scanCandidate_max rest hrest.2 t p hmem hpt
        (fun q hq hqt => hmax q (List.mem_cons_of_mem _ hq) hqt) (some a)

theorem closestScan_min :
    ∀ (l : List PriceObs) (t : Int) (c0 : PriceObs) (d0 : Int),
      (∀ p ∈ l, d0 ≤ |p.ts - t|) → closestScan l t c0 d0 = c0
  | [], _, _, _, _ => rfl
  | a :: rest, t, c0, d0, h => by
    rw [closestScan, if_neg (not_lt.mpr (h a (List.mem_cons_self a rest)))]
    exact closestScan_min rest t c0 d0 (fun p hp => h p (List.mem_cons_of_mem _ hp))

theorem sortPrices_ne_nil {l : List PriceObs} (h : l ≠ []) : sortPrices l ≠ [] :=
  fun hs => h (((hs ▸ sortPrices_perm l : ([] : List PriceObs).Perm l)).symm.eq_nil)

/-- As-of characterization of `priceAt`: when `p` is the latest
observation at or before `t`, the candidate scan returns it. -/
theorem priceAt_asof {etfs : List Etf} {symbol : String} {t : Int}
    {e : Etf} {p : PriceObs}
    (hfind : findEtf etfs symbol = some e)
    (hnd : (e.prices.map PriceObs.ts).Nodup)
    (hp : p ∈ e.prices) (hpt : p.ts ≤ t)
    (hmax : ∀ q ∈ e.prices, q.ts ≤ t → q.ts ≤ p.ts) :
    priceAt etfs symbol t = some p.price := by
  have hne : e.prices ≠ [] := List.ne_nil_of_mem hp
  have hscan : scanCandidate (sortPrices e.prices) t none = some p :=
    scanCandidate_max _ (sortPrices_sorted_lt hnd) t p (mem_sortPrices.mpr hp) hpt
      (fun q hq hqt => hmax q (mem_sortPrices.mp hq) hqt) none
  simp only [priceAt, hfind, hscan]
  rw [if_neg (by simpa using hne)]

/-- Fallback characterization of `priceAt`: when every observation is
strictly after `t`, the minimal-distance observation is returned. -/
theorem priceAt_fallback {etfs : List Etf} {symbol : String} {t : Int}
    {e : Etf} {p : PriceObs}
    (hfind : findEtf etfs symbol = some e)
    (hnd : (e.prices.map PriceObs.ts).Nodup)
    (hall : ∀ q ∈ e.prices, t < q.ts)
    (hp : p ∈ e.prices)
    (hmin : ∀ q ∈ e.prices, |p.ts - t| ≤ |q.ts - t|) :
    priceAt etfs symbol t = some p.price := by
  have hne : e.prices ≠ [] := List.ne_nil_of_mem hp
  obtain ⟨p0, rest, heq⟩ := List.exists_cons_of_ne_nil (sortPrices_ne_nil hne)
  have hsorted := sortPrices_sorted_lt hnd
  have hscan : scanCandidate (sortPrices e.prices) t none = none :=
    scanCandidate_all_gt (fun q hq => hall q (mem_sortPrices.mp hq))
  have hp0mem : p0 ∈ e.prices := mem_sortPrices.mp (heq ▸ List.mem_cons_self _ _)
  have hp0min : ∀ q ∈ sortPrices e.prices, p0.ts ≤ q.ts := by
    rw [heq]; intro q hq
    rcases List.mem_cons.mp hq with heq2 | hq2
    · exact le_of_eq (congrArg PriceObs.ts heq2.symm)
    · exact le_of_lt ((List.sorted_cons.mp (heq ▸ hsorted)).1 q hq2)
  have ht0 : t < p0.ts := hall p0 hp0mem
  have habs : ∀ q ∈ sortPrices e.prices, |p0.ts - t| ≤ |q.ts - t| := by
    intro q hq
    have htq : t < q.ts := hall q (mem_sortPrices.mp hq)
    have hq0 := hp0min q hq
    rw [abs_of_pos (by omega), abs_of_pos (by omega)]
    omega
  have hclosest : closestScan (sortPrices e.prices) t p0 |p0.ts - t| = p0 :=
    closestScan_min _ _ _ _ habs
  have hpp0 : p = p0 := by
    have h1 := hmin p0 hp0mem
    have h2 : |p0.ts - t| ≤ |p.ts - t| := habs p (mem_sortPrices.mpr hp)
    have htp : t < p.ts := hall p hp
    have hts : p.ts = p0.ts := by
      rw [abs_of_pos (by omega), abs_of_pos (by omega)] at h1 h2
      omega
    exact ts_inj hnd hp hp0mem hts
  rw [heq] at hscan hclosest
  simp only [priceAt, hfind, heq, hscan, hclosest]
  rw [if_neg (by simpa using hne), hpp0]

/-- With an instrument found, `priceAt` is null exactly on an empty
price history. -/
theorem priceAt_none_iff {etfs : List Etf} {symbol : String} {t : Int} {e : Etf}
    (hfind : findEtf etfs symbol = some e) :
    priceAt etfs symbol t = none ↔ e.prices = [] := by
  constructor
  · intro h
    by_contra hne
    obtain ⟨p0, rest, heq⟩ := List.exists_cons_of_ne_nil (sortPrices_ne_nil hne)
    simp only [priceAt, hfind] at h
    rw [if_neg (by simpa using hne)] at h
    cases hscan : scanCandidate (sortPrices e.prices) t none with
    | some c => rw [hscan] at h; exact Option.noConfusion h
    | none => rw [hscan, heq] at h; exact Option.noConfusion h
  · intro h
    simp [priceAt, hfind, h]

theorem priceAt_find_none {etfs : List Etf} {symbol : String} {t : Int}
    (hfind : findEtf etfs symbol = none) : priceAt etfs symbol t = none := by
  simp [priceAt, hfind]

/-- Characterization of the `reduce` in `latestPrice`: the fold returns
a member of the list whose timestamp bounds every member. -/
theorem foldlMax_mem_le :
    ∀ (rest : List PriceObs) (p : PriceObs),
      (rest.foldl (fun a b => if a.ts > b.ts then a else b) p) ∈ p :: rest ∧
        ∀ q ∈ p :: rest,
          q.ts ≤ (rest.foldl (fun a b => if a.ts > b.ts then a else b) p).ts
  | [], p => by
    refine ⟨List.mem_cons_self p [], ?_⟩
    intro q hq
    rcases List.mem_cons.mp hq with heq | h
    · exact le_of_eq (congrArg PriceObs.ts heq)
    · exact absurd h (List.not_mem_nil q)
  | b :: rest, p => by
    have ih := foldlMax_mem_le rest (if p.ts > b.ts then p else b)
    rw [List.foldl_cons]
    refine ⟨?_, ?_⟩
    · rcases List.mem_cons.mp ih.1 with heq | hmem
      · rw [heq]
        by_cases hc : p.ts > b.ts
        · simp [hc]
        · simp [hc]
      · exact List.mem_cons_of_mem _ (List.mem_cons_of_mem _ hmem)
    · intro q hq
      rcases List.mem_cons.mp hq with heq | hq2
      · subst heq
        refine le_trans ?_ (ih.2 _ (List.mem_cons_self _ _))
        by_cases hc : q.ts > b.ts
        · simp [hc]
        · simp [hc]
          exact le_of_not_lt hc
      · rcases List.mem_cons.mp hq2 with heq | hq3
        · subst heq
          refine le_trans ?_ (ih.2 _ (List.mem_cons_self _ _))
          by_cases hc : p.ts > q.ts
          · simp [hc]
            exact le_of_lt hc
          · simp [hc]
        · exact ih.2 q (List.mem_cons_of_mem _ hq3)

/-- With distinct timestamps, `latestPrice` returns the price of the
maximal-timestamp observation. -/
theorem latestPrice_eq {etfs : List Etf} {symbol : String} {e : Etf} {m : PriceObs}
    (hfind : findEtf etfs symbol = some e)
    (hnd : (e.prices.map PriceObs.ts).Nodup)
    (hm : m ∈ e.prices) (hmax : ∀ q ∈ e.prices, q.ts ≤ m.ts) :
    latestPrice etfs symbol = some m.price := by
  have hne : e.prices ≠ [] := List.ne_nil_of_mem hm
  obtain ⟨p, rest, heq⟩ := List.exists_cons_of_ne_nil hne
  have hfm := foldlMax_mem_le rest p
  have hrmem : (rest.foldl (fun a b => if a.ts > b.ts then a else b) p) ∈ e.prices :=
    heq ▸ hfm.1
  have hrts : (rest.foldl (fun a b => if a.ts > b.ts then a else b) p).ts = m.ts :=
    le_antisymm (hmax _ hrmem) (hfm.2 m (heq ▸ hm))
  have hrm : (rest.foldl (fun a b => if a.ts > b.ts then a else b) p) = m :=
    ts_inj hnd hrmem hm hrts
  simp only [latestPrice, hfind, heq, hrm]

theorem latestPrice_find_none {etfs : List Etf} {symbol : String}
    (hfind : findEtf etfs symbol = none) : latestPrice etfs symbol = none := by
  simp [latestPrice, hfind]

theorem latestPrice_empty {etfs : List Etf} {symbol : String} {e : Etf}
    (hfind : findEtf etfs symbol = some e) (h : e.prices = []) :
    latestPrice etfs symbol = none := by
  simp [latestPrice, hfind, h]

/-! ## Claim theorems -/

/-- C2: for an instrument with observations of pairwise-distinct
timestamps (the data-model invariant), `priceAt` returns the price of
the latest observation with `timestamp <= t`; when no observation is at
or before `t`, it returns the price of the observation with minimal
absolute timestamp distance to `t`; and it returns null exactly when the
symbol is absent or the instrument has zero observations. -/
theorem priceAt_spec (etfs : List Etf) (symbol : String) (t : Int) :
    (findEtf etfs symbol = none → priceAt etfs symbol t = none) ∧
    ∀ e, findEtf etfs symbol = some e → (e.prices.map PriceObs.ts).Nodup →
      ((∀ p ∈ e.prices, p.ts ≤ t →
          (∀ q ∈ e.prices, q.ts ≤ t → q.ts ≤ p.ts) →
          priceAt etfs symbol t = some p.price) ∧
        ((∀ q ∈ e.prices, t < q.ts) →
          ∀ p ∈ e.prices, (∀ q ∈ e.prices, |p.ts - t| ≤ |q.ts - t|) →
            priceAt etfs symbol t = some p.price) ∧
        (priceAt etfs symbol t = none ↔ e.prices = [])) :=
  ⟨priceAt_find_none, fun _ hf hnd =>
    ⟨fun _ hp hpt hmax => priceAt_asof hf hnd hp hpt hmax,
     fun hall _ hp hmin => priceAt_fallback hf hnd hall hp hmin,
     priceAt_none_iff hf⟩⟩

/-- Witness for C2: on instrument `AAA` with observations `(100, 10)`
and `(200, 20)`, the as-of query at `t=150` yields `10` and the
fallback query at `t=50` (before all observations) also yields `10`. -/
theorem priceAt_spec_witness :
    priceAt [aaaEtf] "AAA" 150 = some 10 ∧
    priceAt [aaaEtf] "AAA" 50 = some 10 := by
  constructor
  · exact ((priceAt_spec [aaaEtf] "AAA" 150).2 aaaEtf rfl (by decide)).1
      ⟨100, 10⟩ (by simp [aaaEtf]) (by decide) (by simp [aaaEtf])
  · exact ((priceAt_spec [aaaEtf] "AAA" 50).2 aaaEtf rfl (by decide)).2.1
      (by simp [aaaEtf]) ⟨100, 10⟩ (by simp [aaaEtf]) (by simp [aaaEtf])

/-- C3: `latestPrice` returns the price of the maximal-timestamp
observation (null when the symbol is absent or has no observations),
and `priceAt` at any query time at or after the last observation equals
`latestPrice`. -/
theorem latestPrice_spec (etfs : List Etf) (symbol : String) :
    (findEtf etfs symbol = none → latestPrice etfs symbol = none) ∧
    ∀ e, findEtf etfs symbol = some e →
      ((e.prices = [] → latestPrice etfs symbol = none) ∧
        ((e.prices.map PriceObs.ts).Nodup →
          ∀ m ∈ e.prices, (∀ q ∈ e.prices, q.ts ≤ m.ts) →
            latestPrice etfs symbol = some m.price ∧
            ∀ t : Int, (∀ q ∈ e.prices, q.ts ≤ t) →
              priceAt etfs symbol t = latestPrice etfs symbol)) :=
  ⟨latestPrice_find_none, fun _ hf =>
    ⟨latestPrice_empty hf, fun hnd m hm hmax =>
      ⟨latestPrice_eq hf hnd hm hmax, fun t ht => by
        rw [latestPrice_eq hf hnd hm hmax]
        exact priceAt_asof hf hnd hm (ht m hm) (fun q hq _ => hmax q hq)⟩⟩⟩

/-- Witness for C3: on instrument `AAA`, `latestPrice` is `20` and
`priceAt` at `t=300` (after the last observation) coincides with it. -/
theorem latestPrice_spec_witness :
    latestPrice [aaaEtf] "AAA" = some 20 ∧
    priceAt [aaaEtf] "AAA" 300 = latestPrice [aaaEtf] "AAA" := by
  have h := (((latestPrice_spec [aaaEtf] "AAA").2 aaaEtf rfl).2 (by decide))
    ⟨200, 20⟩ (by simp [aaaEtf]) (by simp [aaaEtf])
  exact ⟨h.1, h.2 300 (by simp [aaaEtf])⟩

theorem totalsStep_eq (etfs : List Etf) (acc : ℚ × ℚ) (p : Purchase) :
    totalsStep etfs acc p =
      (acc.1 + investedContrib etfs p, acc.2 + currentContrib etfs p) := by
  unfold totalsStep investedContrib currentContrib
  cases priceAt etfs p.symbol p.ts <;> cases latestPrice etfs p.symbol <;> simp

theorem totalsLoop_eq (etfs : List Etf) :
    ∀ (purchases : List Purchase) (a b : ℚ),
      purchases.foldl (totalsStep etfs) (a, b) =
        (a + (purchases.map (investedContrib etfs)).sum,
          b + (purchases.map (currentContrib etfs)).sum)
  | [], a, b => by simp
  | p :: rest, a, b => by
    rw [List.foldl_cons, totalsStep_eq, totalsLoop_eq etfs rest]
    simp [add_assoc]

/-- C4: `computeTotals` returns the per-purchase sums of
`qty * priceAt(symbol, purchase.ts)` (invested) and
`qty * latestPrice(symbol)` (current), with `pl = current - invested`
and `plPct = pl/invested*100` when `invested > 0` and `0` otherwise;
with zero purchases every component is `0`, and on the concrete `AAA`
scenario the totals are `{invested: 50, current: 100, pl: 50,
plPct: 100}`. -/
theorem computeTotals_spec (etfs : List Etf) (purchases : List Purchase) :
    (computeTotals etfs purchases).invested =
      (purchases.map (investedContrib etfs)).sum ∧
    (computeTotals etfs purchases).current =
      (purchases.map (currentContrib etfs)).sum ∧
    (computeTotals etfs purchases).pl =
      (computeTotals etfs purchases).current -
        (computeTotals etfs purchases).invested ∧
    (computeTotals etfs purchases).plPct =
      (if 0 < (computeTotals etfs purchases).invested then
        (computeTotals etfs purchases).pl /
          (computeTotals etfs purchases).invested * 100
      else 0) ∧
    computeTotals etfs [] = ⟨0, 0, 0, 0⟩ ∧
    computeTotals [aaaEtf] [buyAAA] = ⟨50, 100, 50, 100⟩ := by
  have hloop := totalsLoop_eq etfs purchases 0 0
  refine ⟨?_, ?_, rfl, rfl, ?_, ?_⟩
  · simpa [computeTotals] using congrArg Prod.fst hloop
  · simpa [computeTotals] using congrArg Prod.snd hloop
  · norm_num [computeTotals]
  · norm_num [computeTotals, totalsStep, priceAt, latestPrice, findEtf, sortPrices,
      scanCandidate, closestScan, aaaEtf, buyAAA, List.insertionSort,
      List.orderedInsert, List.find?, tsLE, Totals.mk.injEq]

theorem priceAt_no_history {etfs : List Etf} {symbol : String} {t : Int}
    (h : ∀ e, findEtf etfs symbol = some e → e.prices = []) :
    priceAt etfs symbol t = none := by
  cases hf : findEtf etfs symbol with
  | none => exact priceAt_find_none hf
  | some e => exact (priceAt_none_iff hf).mpr (h e hf)

theorem latestPrice_no_history {etfs : List Etf} {symbol : String}
    (h : ∀ e, findEtf etfs symbol = some e → e.prices = []) :
    latestPrice etfs symbol = none := by
  cases hf : findEtf etfs symbol with
  | none => exact latestPrice_find_none hf
  | some e => exact latestPrice_empty hf (h e hf)

/-- C8: a purchase whose symbol has no price observations at all
(including a symbol absent from the instrument collection) resolves to
a null price and contributes exactly zero to both sums of
`computeTotals`: removing it from the purchase list leaves the totals
unchanged, and the remaining purchases are still valued. -/
theorem missing_price_inert (etfs : List Etf) (p : Purchase)
    (h : ∀ e, findEtf etfs p.symbol = some e → e.prices = []) :
    (∀ t : Int, priceAt etfs p.symbol t = none) ∧
    latestPrice etfs p.symbol = none ∧
    ∀ pre post : List Purchase,
      computeTotals etfs (pre ++ p :: post) = computeTotals etfs (pre ++ post) := by
  have h1 : ∀ t : Int, priceAt etfs p.symbol t = none :=
    fun _ => priceAt_no_history h
  have h2 : latestPrice etfs p.symbol = none := latestPrice_no_history h
  refine ⟨h1, h2, ?_⟩
  intro pre post
  have hstep : ∀ acc : ℚ × ℚ, totalsStep etfs acc p = acc := by
    intro acc
    simp [totalsStep, h1, h2]
  simp only [computeTotals, List.foldl_append, List.foldl_cons, hstep]

/-- Witness for C8: purchase `buyCCC` references the absent symbol
`CCC`; its price is null and dropping it does not change the totals. -/
theorem missing_price_inert_witness :
    priceAt [aaaEtf] "CCC" 150 = none ∧
    computeTotals [aaaEtf] [buyAAA, buyCCC] = computeTotals [aaaEtf] [buyAAA] := by
  have hfnone : findEtf [aaaEtf] buyCCC.symbol = none := rfl
  have h := missing_price_inert [aaaEtf] buyCCC
    (fun e hf => by rw [hfnone] at hf; exact Option.noConfusion hf)
  exact ⟨h.1 150, h.2.2 [buyAAA] []⟩

/-! ## Helper lemmas about the timeline builder -/

theorem mem_addTime {x t : Int} {acc : List Int} :
    x ∈ addTime acc t ↔ x ∈ acc ∨ x = t := by
  unfold addTime
  split
  · rename_i h
    constructor
    · exact Or.inl
    · rintro (h1 | rfl)
      · exact h1
      · exact h
  · simp [List.mem_append]

theorem nodup_addTime {acc : List Int} {t : Int} (h : acc.Nodup) :
    (addTime acc t).Nodup := by
  unfold addTime
  split
  · exact h
  · rename_i hmem
    simp [List.nodup_append, h, hmem]

theorem mem_foldl_addTime {α : Type} (f : α → Int) :
    ∀ (l : List α) (acc : List Int) (x : Int),
      x ∈ l.foldl (fun a p => addTime a (f p)) acc ↔ x ∈ acc ∨ ∃ p ∈ l, f p = x
  | [], acc, x => by simp
  | p :: rest, acc, x => by
    rw [List.foldl_cons, mem_foldl_addTime f rest, mem_addTime]
    simp only [List.mem_cons]
    constructor
    · rintro ((h | h) | ⟨q, hq, hfq⟩)
      · exact Or.inl h
      · exact Or.inr ⟨p, Or.inl rfl, h.symm⟩
      · exact Or.inr ⟨q, Or.inr hq, hfq⟩
    · rintro (h | ⟨q, hq | hq, hfq⟩)
      · exact Or.inl (Or.inl h)
      · exact Or.inl (Or.inr (hq ▸ hfq.symm))
      · exact Or.inr ⟨q, hq, hfq⟩

theorem nodup_foldl_addTime {α : Type} (f : α → Int) :
    ∀ (l : List α) (acc : List Int), acc.Nodup →
      (l.foldl (fun a p => addTime a (f p)) acc).Nodup
  | [], _, h => h
  | _ :: rest, _, h => nodup_foldl_addTime f rest _ (nodup_addTime h)

theorem mem_foldl_prices :
    ∀ (es : List Etf) (acc : List Int) (x : Int),
      x ∈ es.foldl (fun acc e => e.prices.foldl (fun a p => addTime a p.ts) acc) acc ↔
        x ∈ acc ∨ ∃ e ∈ es, ∃ p ∈ e.prices, p.ts = x
  | [], acc, x => by simp
  | e :: rest, acc, x => by
    rw [List.foldl_cons, mem_foldl_prices rest, mem_foldl_addTime PriceObs.ts]
    simp only [List.mem_cons]
    constructor
    · rintro ((h | h) | ⟨e2, he2, hp⟩)
      · exact Or.inl h
      · exact Or.inr ⟨e, Or.inl rfl, h⟩
      · exact Or.inr ⟨e2, Or.inr he2, hp⟩
    · rintro (h | ⟨e2, he2 | he2, hp⟩)
      · exact Or.inl (Or.inl h)
      · exact Or.inl (Or.inr (he2 ▸ hp))
      · exact Or.inr ⟨e2, he2, hp⟩

theorem nodup_foldl_prices :
    ∀ (es : List Etf) (acc : List Int), acc.Nodup →
      (es.foldl (fun acc e => e.prices.foldl (fun a p => addTime a p.ts) acc) acc).Nodup
  | [], _, h => h
  | _ :: rest, _, h =>
    nodup_foldl_prices rest _ (nodup_foldl_addTime PriceObs.ts _ _ h)

/-- C5: the sampled timeline is the union of all price-observation
timestamps and all purchase timestamps, deduplicated and sorted strictly
ascending. -/
theorem sampleTimestamps_spec (etfs : List Etf) (purchases : List Purchase) :
    List.Sorted (fun a b : Int => a < b) (sampleTimestamps etfs purchases) ∧
    ∀ t : Int, (t ∈ sampleTimestamps etfs purchases ↔
      ((∃ e ∈ etfs, ∃ p ∈ e.prices, p.ts = t) ∨ ∃ p ∈ purchases, p.ts = t)) := by
  have hdef : sampleTimestamps etfs purchases =
      (purchases.foldl (fun acc p => addTime acc p.ts)
        (etfs.foldl (fun acc e => e.prices.foldl (fun a p => addTime a p.ts) acc)
          [])).insertionSort (· ≤ ·) := rfl
  have hTnd : (purchases.foldl (fun acc p => addTime acc p.ts)
      (etfs.foldl (fun acc e => e.prices.foldl (fun a p => addTime a p.ts) acc)
        [])).Nodup :=
    nodup_foldl_addTime Purchase.ts purchases _
      (nodup_foldl_prices etfs [] List.nodup_nil)
  have hperm := List.perm_insertionSort (α := Int) (· ≤ ·)
    (purchases.foldl (fun acc p => addTime acc p.ts)
      (etfs.foldl (fun acc e => e.prices.foldl (fun a p => addTime a p.ts) acc) []))
  constructor
  · rw [hdef]
    exact List.Sorted.lt_of_le
      (List.sorted_insertionSort (· ≤ ·) _) (hperm.symm.nodup hTnd)
  · intro t
    rw [hdef, hperm.mem_iff, mem_foldl_addTime Purchase.ts,
      mem_foldl_prices etfs [] t]
    simp

/-- C6: `monthsToReach` returns the unreachable sentinel (`none`,
JavaScript `Infinity`) exactly when `monthly <= 0`, and otherwise
`ceil(max(0, target) / monthly)`; non-positive targets give `0`. -/
theorem monthsToReach_spec (target monthly : ℚ) :
    (monthsToReach target monthly = none ↔ monthly ≤ 0) ∧
    (0 < monthly → monthsToReach target monthly = some ⌈max 0 target / monthly⌉) ∧
    (0 < monthly → target ≤ 0 → monthsToReach target monthly = some 0) := by
  refine ⟨?_, ?_, ?_⟩
  · unfold monthsToReach
    split
    · simp [*]
    · simp [*]
  · intro h
    unfold monthsToReach
    rw [if_neg (not_le.mpr h)]
  · intro h ht
    unfold monthsToReach
    rw [if_neg (not_le.mpr h), max_eq_left ht, zero_div]
    simp

/-- Witness for C6: a target of 1200 at 100 per month takes 12 months,
and a negative target is already met (0 months). -/
theorem monthsToReach_spec_witness :
    monthsToReach 1200 100 = some 12 ∧ monthsToReach (-5) 2 = some 0 := by
  constructor
  · have h := (monthsToReach_spec 1200 100).2.1 (by norm_num)
    rw [h]
    norm_num
  · exact (monthsToReach_spec (-5) 2).2.2 (by norm_num) (by norm_num)

/-- C7: the import accepts a document exactly when both `etfs` and
`purchases` are present as arrays; any rejected import (including
unparseable input) leaves the stored state completely unchanged. -/
theorem importAll_spec (doc : Option ImportDoc) (st : AppState) :
    ((importAll doc st).2 = true ↔
      ∃ d, doc = some d ∧ d.etfs ≠ none ∧ d.purchases ≠ none) ∧
    ((importAll doc st).2 = false → (importAll doc st).1 = st) := by
  cases doc with
  | none => simp [importAll]
  | some d =>
    cases he : d.etfs with
    | none => simp [importAll, he]
    | some es =>
      cases hp : d.purchases with
      | none => simp [importAll, he, hp]
      | some ps => simp [importAll, he, hp]

/-- Witness for C7: a document missing the `etfs` array is rejected and
the stored state survives unchanged. -/
theorem importAll_spec_witness :
    (importAll (some ⟨none, some [], none, none⟩)
      ⟨[aaaEtf], [buyAAA], [], ⟨"etfs", []⟩⟩).1 =
      ⟨[aaaEtf], [buyAAA], [], ⟨"etfs", []⟩⟩ :=
  (importAll_spec (some ⟨none, some [], none, none⟩)
    ⟨[aaaEtf], [buyAAA], [], ⟨"etfs", []⟩⟩).2 rfl

/-- C10: with pairwise-distinct timestamps, `priceAt` depends only on
the set of stored observations, not on their storage order, because the
resolver sorts internally by timestamp. -/
theorem priceAt_storage_order (etfs etfs2 : List Etf) (symbol : String) (t : Int)
    (e e2 : Etf) (h1 : findEtf etfs symbol = some e)
    (h2 : findEtf etfs2 symbol = some e2)
    (hperm : e.prices.Perm e2.prices)
    (hnd : (e.prices.map PriceObs.ts).Nodup) :
    priceAt etfs symbol t = priceAt etfs2 symbol t := by
  have hnd2 : (e2.prices.map PriceObs.ts).Nodup := (hperm.map PriceObs.ts).nodup hnd
  haveI : IsAntisymm PriceObs (fun a b : PriceObs => a.ts < b.ts) :=
    ⟨fun _ _ hab hba => absurd hba (lt_asymm hab)⟩
  have hsorteq : sortPrices e.prices = sortPrices e2.prices :=
    List.eq_of_perm_of_sorted
      ((sortPrices_perm _).trans (hperm.trans (sortPrices_perm _).symm))
      (sortPrices_sorted_lt hnd) (sortPrices_sorted_lt hnd2)
  by_cases hpe : e.prices = []
  · have hpe2 : e2.prices = [] := (hpe ▸ hperm).symm.eq_nil
    rw [(priceAt_none_iff h1).mpr hpe, (priceAt_none_iff h2).mpr hpe2]
  · have hpe2 : e2.prices ≠ [] := fun h => hpe (h ▸ hperm).eq_nil
    simp only [priceAt, h1, h2]
    rw [if_neg (by simpa using hpe), if_neg (by simpa using hpe2), hsorteq]

/-- Witness for C10: the two storage orders of `AAA`'s observations give
the same resolved price. -/
theorem priceAt_storage_order_witness :
    priceAt [⟨"AAA", "AAA fund", [⟨200, 20⟩, ⟨100, 10⟩]⟩] "AAA" 150 =
      priceAt [aaaEtf] "AAA" 150 :=
  priceAt_storage_order _ _ "AAA" 150
    ⟨"AAA", "AAA fund", [⟨200, 20⟩, ⟨100, 10⟩]⟩ aaaEtf rfl rfl
    (List.Perm.swap (⟨100, 10⟩ : PriceObs) (⟨200, 20⟩ : PriceObs) []) (by decide)

/-- C1 (code bug): on the timeline `[100, 200]` produced by the timeline
builder for instrument `AAA` (prices at `t=100` and `t=200`) with a
single purchase of 1 unit at `t=100`, the code's incremental invested
series yields `[(100, 10), (200, 20)]`, while the independent
recomputation `investedAt` yields `10` at both sample points: the shared
running accumulator of src/index.js lines 606-613 re-adds every past
purchase at every sample point instead of being recomputed per point. -/
theorem seriesInvested_double_counts :
    sampleTimestamps [aaaEtf] [buyOne] = [100, 200] ∧
    seriesInvested [aaaEtf] [buyOne] [100, 200] = [(100, 10), (200, 20)] ∧
    investedAt [aaaEtf] [buyOne] 100 = 10 ∧
    investedAt [aaaEtf] [buyOne] 200 = 10 := by
  refine ⟨by decide, ?_, ?_, ?_⟩ <;>
    norm_num [seriesInvested, investedAt, priceAt, findEtf, sortPrices,
      scanCandidate, closestScan, aaaEtf, buyOne, List.insertionSort,
      List.orderedInsert, List.find?, tsLE, List.filter, List.isEmpty]

end SIP
